import Mathlib

/-!
Shallow embedding of `src/Utilities.js` of the apps-script-oauth2 utility
module: URL query building, parameter validation, epoch-second conversion,
in-place object extension, key lower-casing, and JWT encode/decode.

Modelling conventions:
* JS objects are association lists of fields in insertion order (the
  `Object.keys` iteration order for the string keys this module uses).
* The two helpers that mutate or allocate objects (`extend_`,
  `toLowerCaseKeys_`) run over an explicit heap of object records, so that
  reference identity, in-place mutation and freshness are expressible.
* JS numbers are modelled as integers (`Int`); the module never performs
  fractional arithmetic on values.
* Host primitives that the source delegates to (percent-encoding, base64url,
  UTF-8, JSON serialization) are modelled from the spec's description of
  those services; each such definition is marked below.
* Fallible host operations (JSON.parse, base64 decode) return `Option`.
-/

/-- JavaScript primitive values as they occur in this module: null, undefined,
booleans, (integer) numbers, strings, and references to heap objects. -/
inductive JSValue where
  | null
  | undef
  | bool (b : Bool)
  | num (n : Int)
  | str (s : String)
  | ref (a : Nat)
  deriving DecidableEq, Repr

/-- A JavaScript object record: an association list of fields in insertion
order. -/
abbrev JSRecord := List (String × JSValue)

/-- JS property assignment `obj[k] = v`: overwrites in place when the key is
present (keeping its position), appends otherwise. -/
def assocSet {α : Type} : List (String × α) → String → α → List (String × α)
  | [], k, v => [(k, v)]
  | (k', v') :: rest, k, v =>
    if k' = k then (k, v) :: rest else (k', v') :: assocSet rest k v

/-- JS property read `obj[k]` (none models undefined). -/
def assocGet {α : Type} : List (String × α) → String → Option α
  | [], _ => none
  | (k', v') :: rest, k => if k' = k then some v' else assocGet rest k

/-- A heap of JS object records, for the helpers that mutate or allocate. -/
structure JSHeap where
  store : Nat → JSRecord
  next : Nat

/-- Overwrite the object at address `a`. -/
def JSHeap.write (h : JSHeap) (a : Nat) (o : JSRecord) : JSHeap :=
  { h with store := fun a' => if a' = a then o else h.store a' }

/-- Allocate a new object, returning its (fresh) address. -/
def JSHeap.alloc (h : JSHeap) (o : JSRecord) : JSHeap × Nat :=
  ({ store := fun a' => if a' = h.next then o else h.store a',
     next := h.next + 1 },
   h.next)

/-- JS truthiness (the coercion in `if (!value)`): empty string, null,
undefined, 0 and false are falsy; object references are always truthy. -/
def falsy : JSValue → Bool
  | .null => true
  | .undef => true
  | .bool b => !b
  | .num n => n = 0
  | .str s => s = ""
  | .ref _ => false

/-- `validate_` from src/Utilities.js lines 41-48: iterates the params in key
order and throws `name + " is required."` at the first falsy value (the JS
forEach aborts there because the callback throws). -/
def validate_ : JSRecord → Except String Unit
  | [] => Except.ok ()
  | kv :: rest =>
    if falsy kv.2 then Except.error (kv.1 ++ " is required.") else validate_ rest

/-- `getTimeInSeconds_` from src/Utilities.js lines 57-59:
`Math.floor(date.getTime() / 1000)`. The date is represented by its integer
millisecond timestamp; JS `Math.floor` of the exact quotient is integer
floor division. -/
def getTimeInSeconds_ (dateMs : Int) : Int := Int.fdiv dateMs 1000

/-- `extend_` from src/Utilities.js lines 72-78: copies every property of the
source object onto the destination object in place (shallow: reference values
are copied as references) and returns the destination reference. -/
def extend_ (h : JSHeap) (destination source : Nat) : JSHeap × Nat :=
  let src := h.store source
  (h.write destination
    (src.foldl (fun d kv => assocSet d kv.1 kv.2) (h.store destination)),
   destination)

/-- `toLowerCaseKeys_` from src/Utilities.js lines 87-97: non-objects
(including null) are returned unchanged; an object is shallow-copied into a
freshly allocated object under lower-cased keys, later keys overwriting
earlier ones that collide. -/
def toLowerCaseKeys_ (h : JSHeap) (obj : JSValue) : JSHeap × JSValue :=
  match obj with
  | .ref a =>
    let copy := (h.store a).foldl (fun r kv => assocSet r kv.1.toLower kv.2) []
    let alloc := h.alloc copy
    (alloc.1, .ref alloc.2)
  | v => (h, v)

/-- Hex digit characters, uppercase (as produced by JS encodeURIComponent). -/
def hexDigitUpper (n : Nat) : Char := Char.ofNat (if n < 10 then 48 + n else 55 + n)

/-- Characters that JS encodeURIComponent leaves unescaped:
A-Z a-z 0-9 - _ . ! ~ * apostrophe ( ). -/
def uriUnreserved (c : Char) : Bool :=
  c.isAlpha || c.isDigit || c = '-' || c = '_' || c = '.' || c = '!' ||
  c = '~' || c = '*' || c = Char.ofNat 39 || c = '(' || c = ')'

/-- UTF-8 encoding of one Unicode scalar value. -/
def utf8EncodeChar (c : Char) : List Nat :=
  let n := c.toNat
  if n < 128 then [n]
  else if n < 2048 then [192 + n / 64, 128 + n % 64]
  else if n < 65536 then [224 + n / 4096, 128 + n / 64 % 64, 128 + n % 64]
  else [240 + n / 262144, 128 + n / 4096 % 64, 128 + n / 64 % 64, 128 + n % 64]

/-- UTF-8 encoding of a character sequence. -/
def utf8Encode : List Char → List Nat
  | [] => []
  | c :: cs => utf8EncodeChar c ++ utf8Encode cs

/-- Modelled from the spec: host primitive `encodeURIComponent`,
percent-encoding every character outside the unreserved set as %XX hex bytes
of its UTF-8 encoding. -/
def encodeURIComponentChars : List Char → List Char
  | [] => []
  | c :: cs =>
    (if uriUnreserved c then [c]
     else (utf8EncodeChar c).foldr
       (fun b acc => '%' :: hexDigitUpper (b / 16) :: hexDigitUpper (b % 16) :: acc)
       []) ++ encodeURIComponentChars cs

/-- String-level wrapper of `encodeURIComponentChars`. -/
def encodeURIComponent (s : String) : String := ⟨encodeURIComponentChars s.data⟩

/-- `buildUrl_` from src/Utilities.js lines 27-32: percent-encode each
key=value pair, join with ampersands, and append to the base URL after the
appropriate separator. -/
def buildUrl_ (url : String) (params : List (String × String)) : String :=
  let paramString :=
    String.intercalate "&"
      (params.map fun kv => encodeURIComponent kv.1 ++ "=" ++ encodeURIComponent kv.2)
  url ++ (if url.data.contains '?' then "&" else "?") ++ paramString

/-- A concrete two-object heap for exercising extend_:
object 0 is the destination, object 1 the source. -/
def extendExampleHeap : JSHeap :=
  { store := fun a =>
      if a = 0 then [("a", JSValue.num 1)]
      else if a = 1 then [("a", JSValue.num 2), ("b", JSValue.num 3)]
      else [],
    next := 2 }

/-- A concrete heap for exercising toLowerCaseKeys_ on the documented
example object with colliding keys. -/
def lowerExampleHeap : JSHeap :=
  { store := fun a => if a = 0 then [("A", JSValue.num 1), ("a", JSValue.num 2)] else [],
    next := 1 }

/-! The JWT pipeline: UTF-8, URL-safe base64, JSON, dot-splitting, and the
encode/decode functions themselves. -/

/-- One UTF-8 scalar off the front of a byte list: the scalar value and the
remaining bytes, or none when the front is not a valid encoding (truncated
or overlong sequences, surrogates and out-of-range code points rejected). -/
def utf8Step : List Nat → Option (Nat × List Nat)
  | [] => none
  | b0 :: rest =>
    if b0 < 128 then some (b0, rest)
    else if b0 < 192 then none
    else if b0 < 224 then
      match rest with
      | b1 :: rest' =>
        if 128 ≤ b1 ∧ b1 < 192 then
          let n := (b0 - 192) * 64 + (b1 - 128)
          if n < 128 then none else some (n, rest')
        else none
      | [] => none
    else if b0 < 240 then
      match rest with
      | b1 :: b2 :: rest' =>
        if (128 ≤ b1 ∧ b1 < 192) ∧ (128 ≤ b2 ∧ b2 < 192) then
          let n := (b0 - 224) * 4096 + (b1 - 128) * 64 + (b2 - 128)
          if n < 2048 ∨ (55296 ≤ n ∧ n < 57344) then none else some (n, rest')
        else none
      | _ => none
    else if b0 < 248 then
      match rest with
      | b1 :: b2 :: b3 :: rest' =>
        if (128 ≤ b1 ∧ b1 < 192) ∧ (128 ≤ b2 ∧ b2 < 192) ∧ (128 ≤ b3 ∧ b3 < 192) then
          let n := (b0 - 240) * 262144 + (b1 - 128) * 4096 + (b2 - 128) * 64 + (b3 - 128)
          if n < 65536 ∨ 1114112 ≤ n then none else some (n, rest')
        else none
      | _ => none
    else none

/-- Scalar-by-scalar UTF-8 decoding loop; the fuel bounds the number of
decoded characters, and one character consumes at least one byte. -/
def utf8DecodeLoop : Nat → List Nat → Option (List Char)
  | _, [] => some []
  | 0, _ :: _ => none
  | fuel + 1, b0 :: tail =>
    match utf8Step (b0 :: tail) with
    | some (n, rest) => (utf8DecodeLoop fuel rest).map (fun cs => Char.ofNat n :: cs)
    | none => none

/-- Modelled from the spec: strict UTF-8 decoding of a whole byte list (the
host's `newBlob(bytes).getDataAsString()`). -/
def utf8Decode (bs : List Nat) : Option (List Char) := utf8DecodeLoop bs.length bs

/-- The URL-safe base64 alphabet character for a sextet. -/
def b64Char (n : Nat) : Char :=
  if n < 26 then Char.ofNat (65 + n)
  else if n < 52 then Char.ofNat (97 + (n - 26))
  else if n < 62 then Char.ofNat (48 + (n - 52))
  else if n = 62 then '-'
  else '_'

/-- Inverse of the URL-safe base64 alphabet. -/
def b64Val (c : Char) : Option Nat :=
  if 65 ≤ c.toNat ∧ c.toNat ≤ 90 then some (c.toNat - 65)
  else if 97 ≤ c.toNat ∧ c.toNat ≤ 122 then some (c.toNat - 97 + 26)
  else if 48 ≤ c.toNat ∧ c.toNat ≤ 57 then some (c.toNat - 48 + 52)
  else if c = '-' then some 62
  else if c = '_' then some 63
  else none

/-- Modelled from the spec: host primitive `Utilities.base64EncodeWebSafe`
on bytes: base64 with the URL-safe alphabet and '=' padding. -/
def base64EncodeBytes : List Nat → List Char
  | b0 :: b1 :: b2 :: rest =>
    b64Char (b0 / 4) :: b64Char ((b0 % 4) * 16 + b1 / 16) ::
    b64Char ((b1 % 16) * 4 + b2 / 64) :: b64Char (b2 % 64) :: base64EncodeBytes rest
  | [b0, b1] =>
    [b64Char (b0 / 4), b64Char ((b0 % 4) * 16 + b1 / 16), b64Char ((b1 % 16) * 4), '=']
  | [b0] => [b64Char (b0 / 4), b64Char ((b0 % 4) * 16), '=', '=']
  | [] => []

/-- Modelled from the spec: host primitive `Utilities.base64DecodeWebSafe`. -/
def base64DecodeChars : List Char → Option (List Nat)
  | [] => some []
  | c0 :: c1 :: c2 :: c3 :: rest =>
    match b64Val c0, b64Val c1 with
    | some v0, some v1 =>
      if c2 = '=' then
        if c3 = '=' ∧ rest = [] then some [v0 * 4 + v1 / 16] else none
      else
        match b64Val c2 with
        | some v2 =>
          if c3 = '=' then
            if rest = [] then some [v0 * 4 + v1 / 16, (v1 % 16) * 16 + v2 / 4] else none
          else
            match b64Val c3 with
            | some v3 =>
              (base64DecodeChars rest).map
                (fun bs => (v0 * 4 + v1 / 16) :: ((v1 % 16) * 16 + v2 / 4) ::
                  ((v2 % 4) * 64 + v3) :: bs)
            | none => none
        | none => none
    | _, _ => none
  | _ => none

/-- JS String.prototype.split with separator ".": the list of dot-free
segments, in order. -/
def splitDots : List Char → List (List Char)
  | [] => [[]]
  | c :: rest =>
    if c = '.' then [] :: splitDots rest
    else
      match splitDots rest with
      | seg :: segs => (c :: seg) :: segs
      | [] => [[c]]

/-- JSON values. Numbers are restricted to integers, which covers every
value this module itself constructs. -/
inductive Json where
  | null
  | bool (b : Bool)
  | num (n : Int)
  | str (s : String)
  | arr (elements : List Json)
  | obj (fields : List (String × Json))
  deriving Repr

/-- Decimal digit character for d < 10. -/
def digitChar (d : Nat) : Char := Char.ofNat (48 + d)

/-- Decimal digits of n, least significant first. -/
def natDigitsRev : Nat → List Char
  | 0 => []
  | n + 1 => digitChar ((n + 1) % 10) :: natDigitsRev ((n + 1) / 10)
  decreasing_by exact Nat.div_lt_self (Nat.succ_pos n) (by norm_num)

/-- Decimal representation of a natural number. -/
def natToChars (n : Nat) : List Char := if n = 0 then ['0'] else (natDigitsRev n).reverse

/-- Decimal representation of an integer (JSON.stringify of a number). -/
def intToChars (n : Int) : List Char :=
  if n < 0 then '-' :: natToChars n.natAbs else natToChars n.natAbs

/-- Lowercase hex digit (JSON.stringify uses lowercase hex in \u escapes). -/
def hexDigitLower (d : Nat) : Char := Char.ofNat (if d < 10 then 48 + d else 87 + d)

/-- JSON.stringify escaping of one string character. -/
def escapeChar (c : Char) : List Char :=
  if c = '"' then ['\\', '"']
  else if c = '\\' then ['\\', '\\']
  else if c = Char.ofNat 8 then ['\\', 'b']
  else if c = '\t' then ['\\', 't']
  else if c = '\n' then ['\\', 'n']
  else if c = Char.ofNat 12 then ['\\', 'f']
  else if c = '\r' then ['\\', 'r']
  else if c.toNat < 32 then
    ['\\', 'u', '0', '0', hexDigitLower (c.toNat / 16), hexDigitLower (c.toNat % 16)]
  else [c]

/-- A JSON string literal: quote, escaped characters, closing quote. -/
def encodeStringChars (s : String) : List Char :=
  '"' :: s.data.foldr (fun c acc => escapeChar c ++ acc) ['"']

mutual
/-- Modelled from the spec: host primitive JSON.stringify — no added
whitespace, fields in insertion order, integers in decimal. -/
def jsonStringifyChars : Json → List Char
  | .null => ['n', 'u', 'l', 'l']
  | .bool b => if b then ['t', 'r', 'u', 'e'] else ['f', 'a', 'l', 's', 'e']
  | .num n => intToChars n
  | .str s => encodeStringChars s
  | .arr es => '[' :: (jsonStringifyElems es ++ [']'])
  | .obj fs => '\x7b' :: (jsonStringifyFields fs ++ ['\x7d'])

/-- Comma-separated stringified array elements. -/
def jsonStringifyElems : List Json → List Char
  | [] => []
  | [e] => jsonStringifyChars e
  | e :: es => jsonStringifyChars e ++ ',' :: jsonStringifyElems es

/-- Comma-separated stringified object fields. -/
def jsonStringifyFields : List (String × Json) → List Char
  | [] => []
  | [(k, v)] => encodeStringChars k ++ ':' :: jsonStringifyChars v
  | (k, v) :: fs =>
    encodeStringChars k ++ ':' :: jsonStringifyChars v ++ ',' :: jsonStringifyFields fs
end

/-- JSON whitespace. -/
def isJsonWs (c : Char) : Bool := c = ' ' || c = '\t' || c = '\n' || c = '\r'

/-- Skip JSON whitespace. -/
def skipWs (cs : List Char) : List Char := cs.dropWhile isJsonWs

/-- Hex digit value (JSON.parse accepts both cases in \u escapes). -/
def hexVal (c : Char) : Option Nat :=
  if 48 ≤ c.toNat ∧ c.toNat ≤ 57 then some (c.toNat - 48)
  else if 97 ≤ c.toNat ∧ c.toNat ≤ 102 then some (c.toNat - 87)
  else if 65 ≤ c.toNat ∧ c.toNat ≤ 70 then some (c.toNat - 55)
  else none

/-- Single-character escapes accepted by JSON.parse. -/
def escDecode (e : Char) : Option Char :=
  if e = '"' then some '"'
  else if e = '\\' then some '\\'
  else if e = '/' then some '/'
  else if e = 'b' then some (Char.ofNat 8)
  else if e = 'f' then some (Char.ofNat 12)
  else if e = 'n' then some '\n'
  else if e = 'r' then some '\r'
  else if e = 't' then some '\t'
  else none

/-- One string-body token: the closing quote (none) or one decoded
character (some c), together with the remaining input. -/
def strStep : List Char → Option (Option Char × List Char)
  | [] => none
  | c :: rest =>
    if c = '"' then some (none, rest)
    else if c = '\\' then
      match rest with
      | [] => none
      | e :: rest' =>
        if e = 'u' then
          match rest' with
          | h1 :: h2 :: h3 :: h4 :: rest'' =>
            match hexVal h1, hexVal h2, hexVal h3, hexVal h4 with
            | some d1, some d2, some d3, some d4 =>
              some (some (Char.ofNat (((d1 * 16 + d2) * 16 + d3) * 16 + d4)), rest'')
            | _, _, _, _ => none
          | _ => none
        else
          match escDecode e with
          | some d => some (some d, rest')
          | none => none
    else some (some c, rest)

/-- Fueled loop of the string-body parser; one decoded character consumes at
least one input character, so fuel beyond the input length never runs out. -/
def parseStringBodyLoop : Nat → List Char → Option (List Char × List Char)
  | 0, _ => none
  | fuel + 1, cs =>
    match strStep cs with
    | some (none, rest) => some ([], rest)
    | some (some c, rest) => (parseStringBodyLoop fuel rest).map (fun r => (c :: r.1, r.2))
    | none => none

/-- Parse the body of a JSON string literal after the opening quote, up to
and including the closing quote; returns the decoded characters and the
remaining input. -/
def parseStringBody (cs : List Char) : Option (List Char × List Char) :=
  parseStringBodyLoop (cs.length + 1) cs

/-- Greedily take decimal digits. -/
def takeDigits : List Char → List Char × List Char
  | [] => ([], [])
  | c :: rest =>
    if c.isDigit then
      let r := takeDigits rest
      (c :: r.1, r.2)
    else ([], c :: rest)

/-- Numeric value of a digit string. -/
def digitsVal (ds : List Char) : Nat := ds.foldl (fun a c => a * 10 + (c.toNat - 48)) 0

/-- Parse an unsigned JSON integer literal: nonempty digits, no redundant
leading zero; a fraction or exponent makes the parse fail rather than
produce a number outside the integer model. -/
def parseNatNumber (cs : List Char) : Option (Nat × List Char) :=
  match takeDigits cs with
  | ([], _) => none
  | (d :: ds, rest) =>
    if d = '0' ∧ ds ≠ [] then none
    else
      match rest with
      | c :: _ =>
        if c = '.' ∨ c = 'e' ∨ c = 'E' then none else some (digitsVal (d :: ds), rest)
      | [] => some (digitsVal (d :: ds), [])

/-- Parse a JSON integer literal with optional leading minus. -/
def parseNumber (cs : List Char) : Option (Int × List Char) :=
  match cs with
  | '-' :: cs' => (parseNatNumber cs').map (fun r => (-(r.1 : Int), r.2))
  | _ => (parseNatNumber cs).map (fun r => ((r.1 : Int), r.2))

mutual
/-- Modelled from the spec: host primitive JSON.parse, as a fueled
recursive-descent parser over characters; one unit of fuel is spent per
nested value, so fuel beyond the input length never runs out. -/
def parseValue : Nat → List Char → Option (Json × List Char)
  | 0, _ => none
  | fuel + 1, cs =>
    match skipWs cs with
    | [] => none
    | c :: rest =>
      if c = 'n' then
        match rest with
        | 'u' :: 'l' :: 'l' :: rest' => some (.null, rest')
        | _ => none
      else if c = 't' then
        match rest with
        | 'r' :: 'u' :: 'e' :: rest' => some (.bool true, rest')
        | _ => none
      else if c = 'f' then
        match rest with
        | 'a' :: 'l' :: 's' :: 'e' :: rest' => some (.bool false, rest')
        | _ => none
      else if c = '"' then
        (parseStringBody rest).map (fun r => (Json.str ⟨r.1⟩, r.2))
      else if c = '[' then
        match skipWs rest with
        | [] => none
        | c' :: rest' =>
          if c' = ']' then some (.arr [], rest')
          else (parseElems fuel (c' :: rest')).map (fun r => (Json.arr r.1, r.2))
      else if c = '\x7b' then
        match skipWs rest with
        | [] => none
        | c' :: rest' =>
          if c' = '\x7d' then some (.obj [], rest')
          else (parseFields fuel (c' :: rest')).map (fun r => (Json.obj r.1, r.2))
      else (parseNumber (c :: rest)).map (fun r => (Json.num r.1, r.2))

/-- Parse one or more comma-separated array elements and the closing
bracket. -/
def parseElems : Nat → List Char → Option (List Json × List Char)
  | 0, _ => none
  | fuel + 1, cs =>
    match parseValue fuel cs with
    | none => none
    | some (v, rest) =>
      match skipWs rest with
      | ',' :: rest' => (parseElems fuel rest').map (fun r => (v :: r.1, r.2))
      | ']' :: rest' => some ([v], rest')
      | _ => none

/-- Parse one or more comma-separated object fields and the closing brace. -/
def parseFields : Nat → List Char → Option (List (String × Json) × List Char)
  | 0, _ => none
  | fuel + 1, cs =>
    match skipWs cs with
    | '"' :: rest =>
      match parseStringBody rest with
      | none => none
      | some (k, rest') =>
        match skipWs rest' with
        | ':' :: rest'' =>
          match parseValue fuel rest'' with
          | none => none
          | some (v, rest3) =>
            match skipWs rest3 with
            | ',' :: rest4 => (parseFields fuel rest4).map (fun r => ((⟨k⟩, v) :: r.1, r.2))
            | '\x7d' :: rest4 => some ([(⟨k⟩, v)], rest4)
            | _ => none
        | _ => none
    | _ => none
end

/-- JSON.parse at the top level: parse one value and require only whitespace
to remain. -/
def jsonParseChars (cs : List Char) : Option Json :=
  match parseValue (cs.length + 1) cs with
  | some (v, rest) => if skipWs rest = [] then some v else none
  | none => none

/-- The options object recognized by encodeJwt_: optional extra header
fields and an optional signing function. -/
structure CustomOptions where
  header : Option (List (String × Json)) := none
  computeJWTSignature : Option (String → String → String) := none

/-- String-level URL-safe base64 of a string's UTF-8 bytes
(`Utilities.base64EncodeWebSafe` applied to a string). -/
def base64EncodeWebSafeStr (s : String) : String := ⟨base64EncodeBytes (utf8Encode s.data)⟩

/-- `computeJWTSignatureDefault_` from src/Utilities.js lines 100-111:
RSA-SHA256-sign the input (the host primitive
`Utilities.computeRsaSha256Signature` is the abstract parameter `rsa`) and
URL-safe base64 the signature bytes. -/
def computeJWTSignatureDefault_ (rsa : String → String → List Nat)
    (toSign key : String) : String :=
  ⟨base64EncodeBytes (rsa toSign key)⟩

/-- `encodeJwt_` from src/Utilities.js lines 124-140: merge caller header
fields over the default RS256 header, base64url the JSON of header and
payload, join with a dot, sign with the chosen signing function, and append
the signature after a second dot. -/
def encodeJwt_ (rsa : String → String → List Nat) (payload : Json) (key : String)
    (customOptions : Option CustomOptions) : String :=
  let opts := customOptions.getD {}
  let header : List (String × Json) :=
    (opts.header.getD []).foldl (fun h kv => assocSet h kv.1 kv.2)
      [("alg", Json.str "RS256"), ("typ", Json.str "JWT")]
  let computeJWTSignature :=
    opts.computeJWTSignature.getD (computeJWTSignatureDefault_ rsa)
  let toSign := base64EncodeWebSafeStr ⟨jsonStringifyChars (Json.obj header)⟩ ++ "." ++
    base64EncodeWebSafeStr ⟨jsonStringifyChars payload⟩
  let signature := computeJWTSignature toSign key
  toSign ++ "." ++ signature

/-- `decodeJwt_` from src/Utilities.js lines 149-153: take the second
dot-separated segment, base64url-decode it, read the bytes as a UTF-8
string, and JSON-parse it; the signature is never inspected. -/
def decodeJwt_ (jwt : String) : Option Json :=
  ((splitDots jwt.data)[1]?).bind fun payload =>
    (base64DecodeChars payload).bind fun bytes =>
      (utf8Decode bytes).bind fun chars =>
        jsonParseChars chars

/-- What may legally follow a JSON number so that the parser stops exactly
there: end of input, or a character that is neither a digit nor a fraction
or exponent marker. -/
def numBoundary : List Char → Prop
  | [] => True
  | c :: _ => c.isDigit = false ∧ c ≠ '.' ∧ c ≠ 'e' ∧ c ≠ 'E'

mutual
/-- Fuel the parser needs for a value: one unit per nesting level. -/
def jsonFuel : Json → Nat
  | .arr es => jsonFuelElems es + 1
  | .obj fs => jsonFuelFields fs + 1
  | _ => 1

/-- Fuel the parser needs for a nonempty element list. -/
def jsonFuelElems : List Json → Nat
  | [] => 1
  | e :: es => max (jsonFuel e) (jsonFuelElems es) + 1

/-- Fuel the parser needs for a nonempty field list. -/
def jsonFuelFields : List (String × Json) → Nat
  | [] => 1
  | kv :: fs => max (jsonFuel kv.2) (jsonFuelFields fs) + 1
end

/-- The header actually serialized by encodeJwt_: caller-supplied fields
assigned over the default RS256 header (Object.assign semantics). -/
def mergedHeader (H : List (String × Json)) : List (String × Json) :=
  H.foldl (fun h kv => assocSet h kv.1 kv.2)
    [("alg", Json.str "RS256"), ("typ", Json.str "JWT")]

/-- The per-segment decoding chain of decodeJwt_: base64url-decode, read the
bytes as UTF-8, JSON-parse. -/
def decodeSegment (seg : List Char) : Option Json :=
  (base64DecodeChars seg).bind fun bytes =>
    (utf8Decode bytes).bind fun chars =>
      jsonParseChars chars

/-! Helper lemmas about association-list assignment. -/

theorem assocGet_assocSet_self {α : Type} (o : List (String × α)) (k : String) (v : α) :
    assocGet (assocSet o k v) k = some v := by
  induction o with
  | nil => simp [assocSet, assocGet]
  | cons kv rest ih =>
    by_cases h : kv.1 = k
    · simp [assocSet, assocGet, h]
    · simp [assocSet, assocGet, h, ih]

theorem assocGet_assocSet_ne {α : Type} (o : List (String × α)) (k k' : String) (v : α)
    (hne : k' ≠ k) : assocGet (assocSet o k v) k' = assocGet o k' := by
  have hne' : ¬k = k' := fun h => hne h.symm
  induction o with
  | nil => simp [assocSet, assocGet, hne']
  | cons kv rest ih =>
    by_cases h : kv.1 = k
    · simp only [assocSet, h, if_pos rfl]
      simp [assocGet, hne', h]
    · simp only [assocSet, if_neg h]
      by_cases h' : kv.1 = k'
      · simp [assocGet, h']
      · simp [assocGet, h', ih]

/-- Folding assignments over entries: an unlisted key keeps its old binding. -/
theorem assocGet_foldl_set_notmem {α : Type} (l : List (String × α)) :
    ∀ (o : List (String × α)) (k : String), k ∉ l.map Prod.fst →
      assocGet (l.foldl (fun d p => assocSet d p.1 p.2) o) k = assocGet o k := by
  induction l with
  | nil => intro o k _; rfl
  | cons p rest ih =>
    intro o k hk
    simp only [List.foldl_cons]
    have h1 : k ∉ rest.map Prod.fst := fun h => hk (by simp [h])
    have h2 : k ≠ p.1 := fun h => hk (by simp [h])
    rw [ih (assocSet o p.1 p.2) k h1, assocGet_assocSet_ne _ _ _ _ h2]

/-- Folding assignments over entries with nodup keys: a listed key ends up
bound to its listed value. -/
theorem assocGet_foldl_set_mem {α : Type} (l : List (String × α)) :
    ∀ (o : List (String × α)) (kv : String × α), kv ∈ l → (l.map Prod.fst).Nodup →
      assocGet (l.foldl (fun d p => assocSet d p.1 p.2) o) kv.1 = some kv.2 := by
  induction l with
  | nil => intro o kv hmem _; cases hmem
  | cons p rest ih =>
    intro o kv hmem hnd
    simp only [List.foldl_cons]
    rw [List.map_cons, List.nodup_cons] at hnd
    rcases List.mem_cons.mp hmem with heq | hmem'
    · subst heq
      rw [assocGet_foldl_set_notmem rest _ kv.1 hnd.1, assocGet_assocSet_self]
    · exact ih (assocSet o p.1 p.2) kv hmem' hnd.2

/-! Claim theorems for the simple utilities. -/

/-- C3: validate_ succeeds exactly on maps without falsy values; on any other
map it throws an error naming the first falsy-valued key (in iteration
order) followed by " is required.", and reports only that key. -/
theorem validate_reports_first_falsy_key :
    ∀ params : JSRecord,
      validate_ params =
        match params.find? (fun kv => falsy kv.2) with
        | some kv => Except.error (kv.1 ++ " is required.")
        | none => Except.ok () := by
  intro params
  induction params with
  | nil => rfl
  | cons kv rest ih =>
    cases h : falsy kv.2 with
    | false => simpa [validate_, h, List.find?] using ih
    | true => simp [validate_, h, List.find?]

/-- C4: buildUrl_ returns the base URL, then an ampersand when the base URL
already contains a question mark and a question mark otherwise, then the
percent-encoded key=value pairs joined with ampersands; the two documented
examples hold. -/
theorem buildUrl_appends_encoded_query :
    (∀ (url : String) (params : List (String × String)),
      buildUrl_ url params =
        url ++ (if url.data.contains '?' then "&" else "?") ++
          String.intercalate "&"
            (params.map fun kv =>
              encodeURIComponent kv.1 ++ "=" ++ encodeURIComponent kv.2)) ∧
    buildUrl_ "https://x.com/a" [("p", "1 2")] = "https://x.com/a?p=1%202" ∧
    buildUrl_ "https://x.com/a?x=1" [("p", "v")] = "https://x.com/a?x=1&p=v" :=
  ⟨fun _ _ => rfl, by decide, by decide⟩

/-- C10: on an empty parameter map buildUrl_ returns the base URL followed by
one dangling separator and nothing else, never the base URL unchanged. -/
theorem buildUrl_empty_params_dangling_separator :
    ∀ url : String,
      buildUrl_ url [] = url ++ (if url.data.contains '?' then "&" else "?") ∧
      buildUrl_ url [] ≠ url := by
  intro url
  have hrw : buildUrl_ url [] = url ++ (if url.data.contains '?' then "&" else "?") := by
    unfold buildUrl_
    cases h : url.data.contains '?' <;> simp [h, String.intercalate]
  refine ⟨hrw, ?_⟩
  rw [hrw]
  intro hcontra
  have hlen := congrArg String.length hcontra
  rw [String.length_append] at hlen
  cases h : url.data.contains '?' <;> rw [h] at hlen <;> simp at hlen <;>
    exact absurd hlen (by decide)

/-- C5 counterexample: for the pre-epoch timestamp -1500 ms the code returns
-2 (the floor), whereas truncation of -1500/1000 toward zero gives -1. -/
theorem getTimeInSeconds_pre_epoch_not_trunc_toward_zero :
    getTimeInSeconds_ (-1500) = -2 ∧ Int.tdiv (-1500) 1000 = -1 := by decide

/-- C5 (amended): getTimeInSeconds_ is a total function returning the floor
of ms/1000 (rounded toward negative infinity): the unique integer q with
1000*q ≤ ms < 1000*(q+1). -/
theorem getTimeInSeconds_is_floor_div :
    ∀ dateMs : Int,
      1000 * getTimeInSeconds_ dateMs ≤ dateMs ∧
      dateMs < 1000 * (getTimeInSeconds_ dateMs + 1) := by
  intro ms
  unfold getTimeInSeconds_
  rw [Int.fdiv_eq_ediv _ (by norm_num)]
  have h1 := Int.ediv_add_emod ms 1000
  have h2 := Int.emod_nonneg ms (by norm_num : (1000 : Int) ≠ 0)
  have h3 := Int.emod_lt_of_pos ms (by norm_num : (0 : Int) < 1000)
  omega

/-- C6: getTimeInSeconds_ is monotone non-decreasing in the millisecond
timestamp, and floors sub-second components: 1500 ms yields 1. -/
theorem getTimeInSeconds_monotone_and_floors :
    (∀ a b : Int, a ≤ b → getTimeInSeconds_ a ≤ getTimeInSeconds_ b) ∧
    getTimeInSeconds_ 1500 = 1 := by
  constructor
  · intro a b hab
    unfold getTimeInSeconds_
    rw [Int.fdiv_eq_ediv _ (by norm_num), Int.fdiv_eq_ediv _ (by norm_num)]
    exact Int.ediv_le_ediv (by norm_num) hab
  · decide

/-- Witness for C6 at concrete timestamps. -/
theorem getTimeInSeconds_monotone_and_floors_witness :
    (-1500 : Int) ≤ 1500 ∧ getTimeInSeconds_ (-1500) ≤ getTimeInSeconds_ 1500 :=
  ⟨by decide, getTimeInSeconds_monotone_and_floors.1 (-1500) 1500 (by decide)⟩

/-- C7: extend_ writes every source field into the destination object in
place (shallow: values, including references, are copied as they are),
leaves destination fields absent from the source unchanged, leaves every
other heap object unchanged, and returns the very destination reference it
was given. -/
theorem extend_overwrites_in_place_and_returns_destination :
    ∀ (h : JSHeap) (d s : Nat),
      ((h.store s).map Prod.fst).Nodup →
      (extend_ h d s).2 = d ∧
      (∀ kv ∈ h.store s,
        assocGet ((extend_ h d s).1.store d) kv.1 = some kv.2) ∧
      (∀ k, k ∉ (h.store s).map Prod.fst →
        assocGet ((extend_ h d s).1.store d) k = assocGet (h.store d) k) ∧
      (∀ a, a ≠ d → (extend_ h d s).1.store a = h.store a) := by
  intro h d s hnd
  refine ⟨rfl, ?_, ?_, ?_⟩
  · intro kv hmem
    show assocGet (if d = d then _ else _) kv.1 = some kv.2
    rw [if_pos rfl]
    exact assocGet_foldl_set_mem (h.store s) (h.store d) kv hmem hnd
  · intro k hk
    show assocGet (if d = d then _ else _) k = assocGet (h.store d) k
    rw [if_pos rfl]
    exact assocGet_foldl_set_notmem (h.store s) (h.store d) k hk
  · intro a ha
    show (if a = d then _ else h.store a) = h.store a
    rw [if_neg ha]

/-- Witness for C7 on the documented example. -/
theorem extend_overwrites_witness :
    ((extendExampleHeap.store 1).map Prod.fst).Nodup ∧
    (extend_ extendExampleHeap 0 1).2 = 0 ∧
    assocGet ((extend_ extendExampleHeap 0 1).1.store 0) "a" = some (JSValue.num 2) ∧
    assocGet ((extend_ extendExampleHeap 0 1).1.store 0) "b" = some (JSValue.num 3) ∧
    (extend_ extendExampleHeap 0 1).1.store 1 = extendExampleHeap.store 1 :=
  ⟨by decide,
   (extend_overwrites_in_place_and_returns_destination extendExampleHeap 0 1 (by decide)).1,
   (extend_overwrites_in_place_and_returns_destination extendExampleHeap 0 1 (by decide)).2.1
     ("a", JSValue.num 2) (by decide),
   (extend_overwrites_in_place_and_returns_destination extendExampleHeap 0 1 (by decide)).2.1
     ("b", JSValue.num 3) (by decide),
   (extend_overwrites_in_place_and_returns_destination extendExampleHeap 0 1 (by decide)).2.2.2
     1 (by decide)⟩

/-- Folding lower-cased-key assignments over an accumulator: the binding at k
is the value of the last entry whose lower-cased key is k, else the old
binding. -/
theorem assocGet_foldl_lower_gen (l : JSRecord) :
    ∀ (o : JSRecord) (k : String),
      assocGet (l.foldl (fun r kv => assocSet r kv.1.toLower kv.2) o) k =
        match l.reverse.find? (fun kv => kv.1.toLower == k) with
        | some kv => some kv.2
        | none => assocGet o k := by
  induction l with
  | nil => intro o k; rfl
  | cons p rest ih =>
    intro o k
    simp only [List.foldl_cons, List.reverse_cons, List.find?_append]
    rw [ih]
    cases hf : rest.reverse.find? (fun kv => kv.1.toLower == k) with
    | some kv => simp [Option.or]
    | none =>
      cases hp : (p.1.toLower == k) with
      | true =>
        have hk : p.1.toLower = k := by simpa using hp
        simp [Option.or, List.find?, hp, hk, assocGet_assocSet_self]
      | false =>
        have hk : k ≠ p.1.toLower := by
          intro h; rw [h] at hp; simp at hp
        simp [Option.or, List.find?, hp, assocGet_assocSet_ne _ _ _ _ hk]

/-- Folding lower-cased-key assignments starting from the empty object. -/
theorem assocGet_foldl_lower (l : JSRecord) (k : String) :
    assocGet (l.foldl (fun r kv => assocSet r kv.1.toLower kv.2) []) k =
      (l.reverse.find? (fun kv => kv.1.toLower == k)).map Prod.snd := by
  rw [assocGet_foldl_lower_gen]
  cases l.reverse.find? (fun kv => kv.1.toLower == k) <;> rfl

/-- C8: toLowerCaseKeys_ returns non-object values (null included)
unchanged; on an object it allocates a fresh object, distinct from the
input, whose field at key k holds the value of the last original field whose
lower-cased key is k, and the rest of the heap is untouched. -/
theorem toLowerCaseKeys_fresh_lowercased_copy :
    ∀ (h : JSHeap) (v : JSValue),
      ((∀ a : Nat, v ≠ .ref a) → toLowerCaseKeys_ h v = (h, v)) ∧
      (∀ a : Nat, v = .ref a → a < h.next →
        (toLowerCaseKeys_ h v).2 = .ref h.next ∧
        (toLowerCaseKeys_ h v).2 ≠ .ref a ∧
        (∀ k, assocGet ((toLowerCaseKeys_ h v).1.store h.next) k =
          ((h.store a).reverse.find? (fun kv => kv.1.toLower == k)).map Prod.snd) ∧
        (∀ b, b ≠ h.next → (toLowerCaseKeys_ h v).1.store b = h.store b) ∧
        (toLowerCaseKeys_ h v).1.next = h.next + 1) := by
  intro h v
  constructor
  · intro hnr
    cases v with
    | ref a => exact absurd rfl (hnr a)
    | null => rfl
    | undef => rfl
    | bool b => rfl
    | num n => rfl
    | str s => rfl
  · intro a hv hlt
    subst hv
    refine ⟨rfl, ?_, ?_, ?_, rfl⟩
    · intro hcontra
      have : h.next = a := by
        simpa [toLowerCaseKeys_, JSHeap.alloc] using hcontra
      omega
    · intro k
      show assocGet (if h.next = h.next then _ else _) k = _
      rw [if_pos rfl]
      exact assocGet_foldl_lower (h.store a) k
    · intro b hb
      show (if b = h.next then _ else h.store b) = h.store b
      rw [if_neg hb]

/-- Witness for C8 on the documented example. -/
theorem toLowerCaseKeys_fresh_lowercased_copy_witness :
    (0 : Nat) < lowerExampleHeap.next ∧
    assocGet ((toLowerCaseKeys_ lowerExampleHeap (.ref 0)).1.store lowerExampleHeap.next) "a" =
      ((lowerExampleHeap.store 0).reverse.find? (fun kv => kv.1.toLower == "a")).map Prod.snd ∧
    toLowerCaseKeys_ lowerExampleHeap .null = (lowerExampleHeap, .null) ∧
    toLowerCaseKeys_ lowerExampleHeap (.num 5) = (lowerExampleHeap, .num 5) :=
  ⟨by decide,
   ((toLowerCaseKeys_fresh_lowercased_copy lowerExampleHeap (.ref 0)).2 0 rfl
     (by decide)).2.2.1 "a",
   (toLowerCaseKeys_fresh_lowercased_copy lowerExampleHeap .null).1
     (fun a h => JSValue.noConfusion h),
   (toLowerCaseKeys_fresh_lowercased_copy lowerExampleHeap (.num 5)).1
     (fun a h => JSValue.noConfusion h)⟩

/-! UTF-8 round trip. -/

/-- Char.ofNat evaluated at a valid scalar keeps the scalar. -/
theorem toNat_ofNat_valid (n : Nat) (h : n.isValidChar) : (Char.ofNat n).toNat = n := by
  unfold Char.ofNat
  rw [dif_pos h]
  rfl

/-- All UTF-8 bytes of one character are bytes. -/
theorem utf8EncodeChar_lt_256 (c : Char) : ∀ b ∈ utf8EncodeChar c, b < 256 := by
  have hv : c.toNat.isValidChar := c.valid
  have hv' : c.toNat < 55296 ∨ (57343 < c.toNat ∧ c.toNat < 1114112) := hv
  intro b hb
  unfold utf8EncodeChar at hb
  by_cases h1 : c.toNat < 128
  · simp only [if_pos h1, List.mem_singleton] at hb; omega
  · by_cases h2 : c.toNat < 2048
    · simp only [if_neg h1, if_pos h2, List.mem_cons, List.mem_singleton] at hb
      rcases hb with rfl | rfl | h <;> first | omega | cases h
    · by_cases h3 : c.toNat < 65536
      · simp only [if_neg h1, if_neg h2, if_pos h3, List.mem_cons, List.mem_singleton] at hb
        rcases hb with rfl | rfl | rfl | h <;> first | omega | cases h
      · simp only [if_neg h1, if_neg h2, if_neg h3, List.mem_cons, List.mem_singleton] at hb
        rcases hb with rfl | rfl | rfl | rfl | h <;> first | omega | cases h

/-- All UTF-8 bytes of a string are bytes. -/
theorem utf8Encode_lt_256 (l : List Char) : ∀ b ∈ utf8Encode l, b < 256 := by
  induction l with
  | nil => intro b hb; cases hb
  | cons c cs ih =>
    intro b hb
    rcases List.mem_append.mp (by simpa [utf8Encode] using hb) with h | h
    · exact utf8EncodeChar_lt_256 c b h
    · exact ih b h

/-- utf8Step reads back exactly one encoded character. -/
theorem utf8Step_encodeChar (c : Char) (bs : List Nat) :
    utf8Step (utf8EncodeChar c ++ bs) = some (c.toNat, bs) := by
  have hv' : c.toNat < 55296 ∨ (57343 < c.toNat ∧ c.toNat < 1114112) := c.valid
  by_cases h1 : c.toNat < 128
  · simp only [utf8EncodeChar, if_pos h1, List.cons_append, List.nil_append]
    simp only [utf8Step, if_pos h1]
  · by_cases h2 : c.toNat < 2048
    · have he : (192 + c.toNat / 64 - 192) * 64 + (128 + c.toNat % 64 - 128) = c.toNat := by
        omega
      simp only [utf8EncodeChar, if_neg h1, if_pos h2, List.cons_append, List.nil_append]
      simp only [utf8Step]
      rw [if_neg (by omega), if_neg (by omega), if_pos (by omega), if_pos (by omega), he,
        if_neg (by omega)]
    · by_cases h3 : c.toNat < 65536
      · have he : (224 + c.toNat / 4096 - 224) * 4096 + (128 + c.toNat / 64 % 64 - 128) * 64 +
            (128 + c.toNat % 64 - 128) = c.toNat := by omega
        simp only [utf8EncodeChar, if_neg h1, if_neg h2, if_pos h3, List.cons_append,
          List.nil_append]
        simp only [utf8Step]
        rw [if_neg (by omega), if_neg (by omega), if_neg (by omega), if_pos (by omega),
          if_pos (by omega), he, if_neg (by omega)]
      · have he : (240 + c.toNat / 262144 - 240) * 262144 +
            (128 + c.toNat / 4096 % 64 - 128) * 4096 +
            (128 + c.toNat / 64 % 64 - 128) * 64 + (128 + c.toNat % 64 - 128) = c.toNat := by
          omega
        simp only [utf8EncodeChar, if_neg h1, if_neg h2, if_neg h3, List.cons_append,
          List.nil_append]
        simp only [utf8Step]
        rw [if_neg (by omega), if_neg (by omega), if_neg (by omega), if_neg (by omega),
          if_pos (by omega), if_pos (by omega), he, if_neg (by omega)]

/-- Every character encodes to at least one byte. -/
theorem utf8EncodeChar_ne_nil (c : Char) : utf8EncodeChar c ≠ [] := by
  unfold utf8EncodeChar
  by_cases h1 : c.toNat < 128
  · simp [h1]
  · by_cases h2 : c.toNat < 2048
    · simp [h1, h2]
    · by_cases h3 : c.toNat < 65536 <;> simp [h1, h2, h3]

/-- The decode loop inverts encoding given enough fuel. -/
theorem utf8DecodeLoop_encode (l : List Char) :
    ∀ fuel, l.length ≤ fuel → utf8DecodeLoop fuel (utf8Encode l) = some l := by
  induction l with
  | nil => intro fuel _; cases fuel <;> rfl
  | cons c cs ih =>
    intro fuel hf
    obtain ⟨f, rfl⟩ : ∃ f, fuel = f + 1 :=
      ⟨fuel - 1, by simp only [List.length_cons] at hf; omega⟩
    obtain ⟨b0, tail, htail⟩ : ∃ b0 tail, utf8EncodeChar c ++ utf8Encode cs = b0 :: tail := by
      cases hE : utf8EncodeChar c with
      | nil => exact absurd hE (utf8EncodeChar_ne_nil c)
      | cons x xs => exact ⟨x, xs ++ utf8Encode cs, by simp [hE]⟩
    have hstep := utf8Step_encodeChar c (utf8Encode cs)
    rw [htail] at hstep
    show utf8DecodeLoop (f + 1) (utf8EncodeChar c ++ utf8Encode cs) = some (c :: cs)
    rw [htail]
    show (match utf8Step (b0 :: tail) with
      | some (n, rest) => (utf8DecodeLoop f rest).map (fun l => Char.ofNat n :: l)
      | none => none) = some (c :: cs)
    rw [hstep]
    show (utf8DecodeLoop f (utf8Encode cs)).map (fun l => Char.ofNat c.toNat :: l) = _
    rw [ih f (by simp only [List.length_cons] at hf; omega), Char.ofNat_toNat]
    rfl

/-- A string never has more characters than UTF-8 bytes. -/
theorem length_le_utf8Encode_length (l : List Char) : l.length ≤ (utf8Encode l).length := by
  induction l with
  | nil => simp [utf8Encode]
  | cons c cs ih =>
    show (c :: cs).length ≤ (utf8EncodeChar c ++ utf8Encode cs).length
    rw [List.length_append, List.length_cons]
    have h1 : 1 ≤ (utf8EncodeChar c).length := by
      cases hE : utf8EncodeChar c with
      | nil => exact absurd hE (utf8EncodeChar_ne_nil c)
      | cons _ _ => simp
    omega

/-- UTF-8 decoding inverts UTF-8 encoding. -/
theorem utf8Decode_utf8Encode (l : List Char) : utf8Decode (utf8Encode l) = some l :=
  utf8DecodeLoop_encode l (utf8Encode l).length (length_le_utf8Encode_length l)

/-! URL-safe base64 round trip. -/

/-- The alphabet map has the documented inverse on sextets. -/
theorem b64Val_b64Char : ∀ n, n < 64 → b64Val (b64Char n) = some n := by decide

/-- Alphabet characters are never the padding character. -/
theorem b64Char_ne_pad : ∀ n, n < 64 → b64Char n ≠ '=' := by decide

/-- Alphabet characters are never a dot. -/
theorem b64Char_ne_dot : ∀ n, n < 64 → b64Char n ≠ '.' := by decide

/-- Base64 decoding inverts base64 encoding on byte lists. -/
theorem base64_decode_encode : ∀ bs : List Nat, (∀ b ∈ bs, b < 256) →
    base64DecodeChars (base64EncodeBytes bs) = some bs := by
  intro bs
  induction bs using base64EncodeBytes.induct with
  | case1 b0 b1 b2 rest ih =>
    intro hb
    have h0 : b0 < 256 := hb b0 (by simp)
    have h1 : b1 < 256 := hb b1 (by simp)
    have h2 : b2 < 256 := hb b2 (by simp)
    have hr : ∀ b ∈ rest, b < 256 := fun b h => hb b (by simp [h])
    have e0 : b0 / 4 * 4 + ((b0 % 4) * 16 + b1 / 16) / 16 = b0 := by omega
    have e1 : ((b0 % 4) * 16 + b1 / 16) % 16 * 16 + ((b1 % 16) * 4 + b2 / 64) / 4 = b1 := by
      omega
    have e2 : ((b1 % 16) * 4 + b2 / 64) % 4 * 64 + b2 % 64 = b2 := by omega
    have hv0 := b64Val_b64Char (b0 / 4) (by omega)
    have hv1 := b64Val_b64Char ((b0 % 4) * 16 + b1 / 16) (by omega)
    have hv2 := b64Val_b64Char ((b1 % 16) * 4 + b2 / 64) (by omega)
    have hv3 := b64Val_b64Char (b2 % 64) (by omega)
    have hp2 := b64Char_ne_pad ((b1 % 16) * 4 + b2 / 64) (by omega)
    have hp3 := b64Char_ne_pad (b2 % 64) (by omega)
    simp only [base64EncodeBytes, base64DecodeChars]
    simp [hv0, hv1, hv2, hv3, hp2, hp3, ih hr, e0, e1, e2]
  | case2 b0 b1 =>
    intro hb
    have h0 : b0 < 256 := hb b0 (by simp)
    have h1 : b1 < 256 := hb b1 (by simp)
    have e0 : b0 / 4 * 4 + ((b0 % 4) * 16 + b1 / 16) / 16 = b0 := by omega
    have e1 : ((b0 % 4) * 16 + b1 / 16) % 16 * 16 + ((b1 % 16) * 4) / 4 = b1 := by omega
    have hv0 := b64Val_b64Char (b0 / 4) (by omega)
    have hv1 := b64Val_b64Char ((b0 % 4) * 16 + b1 / 16) (by omega)
    have hv2 := b64Val_b64Char ((b1 % 16) * 4) (by omega)
    have hp2 := b64Char_ne_pad ((b1 % 16) * 4) (by omega)
    simp only [base64EncodeBytes, base64DecodeChars]
    simp [hv0, hv1, hv2, hp2, e0, e1]
    omega
  | case3 b0 =>
    intro hb
    have h0 : b0 < 256 := hb b0 (by simp)
    have e0 : b0 / 4 * 4 + ((b0 % 4) * 16) / 16 = b0 := by omega
    have hv0 := b64Val_b64Char (b0 / 4) (by omega)
    have hv1 := b64Val_b64Char ((b0 % 4) * 16) (by omega)
    simp only [base64EncodeBytes, base64DecodeChars]
    simp [hv0, hv1, e0]
    omega
  | case4 =>
    intro _
    rfl

/-- The base64 encoding of bytes never contains a dot. -/
theorem dot_not_mem_base64 : ∀ bs : List Nat, (∀ b ∈ bs, b < 256) →
    '.' ∉ base64EncodeBytes bs := by
  intro bs
  induction bs using base64EncodeBytes.induct with
  | case1 b0 b1 b2 rest ih =>
    intro hb hmem
    have h0 : b0 < 256 := hb b0 (by simp)
    have h1 : b1 < 256 := hb b1 (by simp)
    have h2 : b2 < 256 := hb b2 (by simp)
    have hr : ∀ b ∈ rest, b < 256 := fun b h => hb b (by simp [h])
    simp only [base64EncodeBytes, List.mem_cons] at hmem
    rcases hmem with h | h | h | h | h
    · exact b64Char_ne_dot (b0 / 4) (by omega) h.symm
    · exact b64Char_ne_dot ((b0 % 4) * 16 + b1 / 16) (by omega) h.symm
    · exact b64Char_ne_dot ((b1 % 16) * 4 + b2 / 64) (by omega) h.symm
    · exact b64Char_ne_dot (b2 % 64) (by omega) h.symm
    · exact ih hr h
  | case2 b0 b1 =>
    intro hb hmem
    have h0 : b0 < 256 := hb b0 (by simp)
    have h1 : b1 < 256 := hb b1 (by simp)
    simp only [base64EncodeBytes, List.mem_cons, List.not_mem_nil, or_false] at hmem
    rcases hmem with h | h | h | h
    · exact b64Char_ne_dot (b0 / 4) (by omega) h.symm
    · exact b64Char_ne_dot ((b0 % 4) * 16 + b1 / 16) (by omega) h.symm
    · exact b64Char_ne_dot ((b1 % 16) * 4) (by omega) h.symm
    · exact absurd h (by decide)
  | case3 b0 =>
    intro hb hmem
    have h0 : b0 < 256 := hb b0 (by simp)
    simp only [base64EncodeBytes, List.mem_cons, List.not_mem_nil, or_false] at hmem
    rcases hmem with h | h | h | h
    · exact b64Char_ne_dot (b0 / 4) (by omega) h.symm
    · exact b64Char_ne_dot ((b0 % 4) * 16) (by omega) h.symm
    · exact absurd h (by decide)
    · exact absurd h (by decide)
  | case4 =>
    intro _ hmem
    cases hmem

/-! Dot splitting. -/

/-- splitDots always yields at least one segment. -/
theorem splitDots_ne_nil (cs : List Char) : splitDots cs ≠ [] := by
  cases cs with
  | nil => simp [splitDots]
  | cons c rest =>
    by_cases h : c = '.'
    · simp [splitDots, h]
    · simp only [splitDots, if_neg h]
      cases hs : splitDots rest <;> simp

/-- A dot-free prefix becomes the first segment. -/
theorem splitDots_append (a : List Char) :
    ∀ rest, '.' ∉ a → splitDots (a ++ '.' :: rest) = a :: splitDots rest := by
  induction a with
  | nil => intro rest _; simp [splitDots]
  | cons c a' ih =>
    intro rest ha
    have hc : c ≠ '.' := fun h => ha (by simp [h])
    have ha' : '.' ∉ a' := fun h => ha (by simp [h])
    simp only [List.cons_append, splitDots, if_neg hc, List.append_eq, ih rest ha']

/-- The second dot-separated segment of a ++ "." ++ b ++ "." ++ c is b, for
dot-free a and b. -/
theorem splitDots_second (a b c : List Char) (ha : '.' ∉ a) (hb : '.' ∉ b) :
    (splitDots (a ++ '.' :: (b ++ '.' :: c)))[1]? = some b := by
  rw [splitDots_append a _ ha, splitDots_append b c hb]
  simp

/-! Decimal digits. -/

/-- Facts about decimal digit characters, by enumeration. -/
theorem digitChar_facts : ∀ d, d < 10 →
    (digitChar d).isDigit = true ∧ (digitChar d).toNat = 48 + d ∧
    isJsonWs (digitChar d) = false ∧ digitChar d ≠ '-' ∧
    digitChar d ≠ 'n' ∧ digitChar d ≠ 't' ∧ digitChar d ≠ 'f' ∧ digitChar d ≠ '"' ∧
    digitChar d ≠ '[' ∧ digitChar d ≠ '\x7b' ∧ digitChar d ≠ ']' ∧
    digitChar d ≠ '\x7d' := by decide

/-- A nonzero digit is not the zero character. -/
theorem digitChar_ne_zero : ∀ d, d < 10 → d ≠ 0 → digitChar d ≠ '0' := by decide

/-- Every character produced by natDigitsRev is a decimal digit character. -/
theorem natDigitsRev_mem (m : Nat) : ∀ c ∈ natDigitsRev m, ∃ d, d < 10 ∧ c = digitChar d := by
  induction m using Nat.strong_induction_on with
  | _ m ih =>
    match m with
    | 0 => intro c hc; simp [natDigitsRev] at hc
    | n + 1 =>
      intro c hc
      simp only [natDigitsRev] at hc
      rcases List.mem_cons.mp hc with h | h
      · exact ⟨(n + 1) % 10, by omega, h⟩
      · exact ih ((n + 1) / 10) (Nat.div_lt_self (Nat.succ_pos n) (by norm_num)) c h

/-- The numeric value of a digit list grows by one digit on the right. -/
theorem digitsVal_append_single (l : List Char) (c : Char) :
    digitsVal (l ++ [c]) = digitsVal l * 10 + (c.toNat - 48) := by
  unfold digitsVal
  rw [List.foldl_append]
  rfl

/-- Reading the reversed digit list back gives the number. -/
theorem digitsVal_natDigitsRev (m : Nat) : digitsVal (natDigitsRev m).reverse = m := by
  induction m using Nat.strong_induction_on with
  | _ m ih =>
    match m with
    | 0 => simp [natDigitsRev, digitsVal]
    | n + 1 =>
      simp only [natDigitsRev, List.reverse_cons]
      rw [digitsVal_append_single,
        ih ((n + 1) / 10) (Nat.div_lt_self (Nat.succ_pos n) (by norm_num)),
        (digitChar_facts ((n + 1) % 10) (by omega)).2.1]
      omega

/-- Reading the decimal representation back gives the number. -/
theorem digitsVal_natToChars (m : Nat) : digitsVal (natToChars m) = m := by
  unfold natToChars
  by_cases h : m = 0
  · rw [if_pos h, h]; rfl
  · rw [if_neg h, digitsVal_natDigitsRev]

/-- The decimal representation starts with a digit character; zero is the
single zero character, and a positive number has a nonzero leading digit. -/
theorem natToChars_shape (m : Nat) :
    ∃ d ds, d < 10 ∧ natToChars m = digitChar d :: ds ∧ (d = 0 → ds = []) := by
  induction m using Nat.strong_induction_on with
  | _ m ih =>
    match m with
    | 0 => exact ⟨0, [], by omega, rfl, fun _ => rfl⟩
    | n + 1 =>
      by_cases h10 : (n + 1) / 10 = 0
      · refine ⟨(n + 1) % 10, [], by omega, ?_, fun _ => rfl⟩
        unfold natToChars
        rw [if_neg (Nat.succ_ne_zero n)]
        simp only [natDigitsRev, h10]
        rfl
      · obtain ⟨d, ds, hd10, hds, hz⟩ :=
          ih ((n + 1) / 10) (Nat.div_lt_self (Nat.succ_pos n) (by norm_num))
        refine ⟨d, ds ++ [digitChar ((n + 1) % 10)], hd10, ?_, fun hd0 => ?_⟩
        · unfold natToChars
          rw [if_neg (Nat.succ_ne_zero n)]
          simp only [natDigitsRev, List.reverse_cons]
          unfold natToChars at hds
          rw [if_neg h10] at hds
          rw [hds]
          rfl
        · -- a nonzero leading digit: d = 0 would force (n+1)/10 = 0
          exfalso
          have hnil := hz hd0
          subst hnil
          subst hd0
          have := digitsVal_natToChars ((n + 1) / 10)
          rw [hds] at this
          have hv : digitsVal [digitChar 0] = 0 := by decide
          rw [hv] at this
          exact h10 this.symm

/-- All characters of a decimal representation are digits. -/
theorem natToChars_all_digits (m : Nat) : ∀ c ∈ natToChars m, c.isDigit = true := by
  unfold natToChars
  by_cases h : m = 0
  · rw [if_pos h]
    intro c hc
    rw [List.mem_singleton.mp hc]
    decide
  · rw [if_neg h]
    intro c hc
    obtain ⟨d, hd, rfl⟩ := natDigitsRev_mem m c (List.mem_reverse.mp hc)
    exact (digitChar_facts d hd).1

/-- takeDigits consumes exactly a digit block before a non-digit boundary. -/
theorem takeDigits_append (ds : List Char) :
    ∀ rest, (∀ c ∈ ds, c.isDigit = true) → numBoundary rest →
      takeDigits (ds ++ rest) = (ds, rest) := by
  induction ds with
  | nil =>
    intro rest _ hrest
    cases rest with
    | nil => rfl
    | cons c rest' =>
      simp only [List.nil_append, takeDigits]
      rw [if_neg (by simp [hrest.1])]
  | cons d ds' ih =>
    intro rest hds hrest
    simp only [List.cons_append, takeDigits, List.append_eq]
    rw [if_pos (hds d (by simp)), ih rest (fun c h => hds c (by simp [h])) hrest]

/-- Parsing an unsigned decimal representation stops at the boundary and
reads the number back. -/
theorem parseNatNumber_natToChars (m : Nat) (rest : List Char) (hrest : numBoundary rest) :
    parseNatNumber (natToChars m ++ rest) = some (m, rest) := by
  unfold parseNatNumber
  rw [takeDigits_append (natToChars m) rest (natToChars_all_digits m) hrest]
  obtain ⟨d, ds, hd10, hds, hz⟩ := natToChars_shape m
  rw [hds]
  dsimp only
  have hcond : ¬(digitChar d = '0' ∧ ds ≠ []) := by
    rintro ⟨hc0, hne⟩
    by_cases hd0 : d = 0
    · exact hne (hz hd0)
    · exact digitChar_ne_zero d hd10 hd0 hc0
  rw [if_neg hcond]
  have hval : digitsVal (digitChar d :: ds) = m := by
    rw [← hds]; exact digitsVal_natToChars m
  cases rest with
  | nil => rw [hval]
  | cons c rest' =>
    dsimp only
    have hcond2 : ¬(c = '.' ∨ c = 'e' ∨ c = 'E') := by
      rintro (h | h | h) <;> exact absurd h (by
        first
        | exact hrest.2.1
        | exact hrest.2.2.1
        | exact hrest.2.2.2)
    rw [if_neg hcond2, hval]

/-- Parsing a signed decimal representation reads the integer back. -/
theorem parseNumber_intToChars (n : Int) (rest : List Char) (hrest : numBoundary rest) :
    parseNumber (intToChars n ++ rest) = some (n, rest) := by
  unfold intToChars parseNumber
  by_cases hn : n < 0
  · rw [if_pos hn]
    show (parseNatNumber (natToChars n.natAbs ++ rest)).map _ = _
    rw [parseNatNumber_natToChars n.natAbs rest hrest]
    simp only [Option.map_some']
    have habs : -((n.natAbs : Nat) : Int) = n := by omega
    rw [habs]
  · rw [if_neg hn]
    obtain ⟨d, ds, hd10, hds, _⟩ := natToChars_shape n.natAbs
    split
    · -- the representation cannot start with a minus sign
      rename_i cs' heq
      exfalso
      rw [hds] at heq
      simp only [List.cons_append, List.cons.injEq] at heq
      exact (digitChar_facts d hd10).2.2.2.1 heq.1
    · rw [parseNatNumber_natToChars n.natAbs rest hrest]
      simp only [Option.map_some']
      have habs : ((n.natAbs : Nat) : Int) = n := by omega
      rw [habs]

/-! JSON string escaping round trip. -/

/-- Hex values of the lowercase hex digits used by the escaper. -/
theorem hexVal_hexDigitLower : ∀ d, d < 16 → hexVal (hexDigitLower d) = some d := by decide

/-- Appending after escaped text folds into the accumulator. -/
theorem foldr_escape_append (l : List Char) (acc rest : List Char) :
    (l.foldr (fun c a => escapeChar c ++ a) acc) ++ rest =
      l.foldr (fun c a => escapeChar c ++ a) (acc ++ rest) := by
  induction l with
  | nil => rfl
  | cons c l' ih => simp only [List.foldr_cons, List.append_assoc, ih]

/-- strStep decodes exactly one escaped character off the front. -/
theorem strStep_escapeChar (c : Char) (bs : List Char) :
    strStep (escapeChar c ++ bs) = some (some c, bs) := by
  by_cases h1 : c = '"'
  · subst h1
    simp only [escapeChar, if_pos rfl, List.cons_append, List.nil_append]
    simp [strStep, escDecode]
  · by_cases h2 : c = '\\'
    · subst h2
      simp only [escapeChar, if_pos rfl, if_neg h1, List.cons_append, List.nil_append]
      simp [strStep, escDecode]
    · by_cases h3 : c = Char.ofNat 8
      · subst h3
        simp only [escapeChar, if_pos rfl, if_neg h1, if_neg h2, List.cons_append,
          List.nil_append]
        simp [strStep, escDecode]
      · by_cases h4 : c = '\t'
        · subst h4
          simp only [escapeChar, if_pos rfl, if_neg h1, if_neg h2, if_neg h3,
            List.cons_append, List.nil_append]
          simp [strStep, escDecode]
        · by_cases h5 : c = '\n'
          · subst h5
            simp only [escapeChar, if_pos rfl, if_neg h1, if_neg h2, if_neg h3, if_neg h4,
              List.cons_append, List.nil_append]
            simp [strStep, escDecode]
          · by_cases h6 : c = Char.ofNat 12
            · subst h6
              simp only [escapeChar, if_pos rfl, if_neg h1, if_neg h2, if_neg h3, if_neg h4,
                if_neg h5, List.cons_append, List.nil_append]
              simp [strStep, escDecode]
            · by_cases h7 : c = '\r'
              · subst h7
                simp only [escapeChar, if_pos rfl, if_neg h1, if_neg h2, if_neg h3,
                  if_neg h4, if_neg h5, if_neg h6, List.cons_append, List.nil_append]
                simp [strStep, escDecode]
              · by_cases h8 : c.toNat < 32
                · simp only [escapeChar, if_pos h8, if_neg h1, if_neg h2, if_neg h3,
                    if_neg h4, if_neg h5, if_neg h6, if_neg h7, List.cons_append,
                    List.nil_append]
                  have hv0 : hexVal '0' = some 0 := by decide
                  have hv1 := hexVal_hexDigitLower (c.toNat / 16) (by omega)
                  have hv2 := hexVal_hexDigitLower (c.toNat % 16) (by omega)
                  simp [strStep, hv0, hv1, hv2]
                  rw [show c.toNat / 16 * 16 + c.toNat % 16 = c.toNat by omega,
                    Char.ofNat_toNat]
                · simp only [escapeChar, if_neg h8, if_neg h1, if_neg h2, if_neg h3,
                    if_neg h4, if_neg h5, if_neg h6, if_neg h7, List.cons_append,
                    List.nil_append]
                  simp [strStep, h1, h2]

/-- Escaping one character always produces at least one character. -/
theorem escapeChar_ne_nil (c : Char) : escapeChar c ≠ [] := by
  unfold escapeChar
  split_ifs <;> simp

/-- The string-body loop undoes JSON.stringify escaping given enough fuel. -/
theorem parseStringBodyLoop_escape (l : List Char) :
    ∀ fuel rest, l.length + 1 ≤ fuel →
      parseStringBodyLoop fuel (l.foldr (fun c a => escapeChar c ++ a) ('"' :: rest)) =
        some (l, rest) := by
  induction l with
  | nil =>
    intro fuel rest hf
    obtain ⟨f, rfl⟩ : ∃ f, fuel = f + 1 := ⟨fuel - 1, by omega⟩
    simp [parseStringBodyLoop, strStep]
  | cons c l' ih =>
    intro fuel rest hf
    obtain ⟨f, rfl⟩ : ∃ f, fuel = f + 1 :=
      ⟨fuel - 1, by simp only [List.length_cons] at hf; omega⟩
    simp only [List.foldr_cons, parseStringBodyLoop]
    rw [strStep_escapeChar]
    dsimp only
    rw [ih f rest (by simp only [List.length_cons] at hf; omega)]
    rfl

/-- Escaped text is at least as long as the original. -/
theorem escaped_length (l : List Char) (acc : List Char) :
    l.length + acc.length ≤ (l.foldr (fun c a => escapeChar c ++ a) acc).length := by
  induction l with
  | nil => simp
  | cons c l' ih =>
    simp only [List.foldr_cons, List.length_append, List.length_cons]
    have h1 : 1 ≤ (escapeChar c).length :=
      List.length_pos.mpr (escapeChar_ne_nil c)
    omega

/-- The string-body parser undoes JSON.stringify escaping. -/
theorem parseStringBody_escape (l : List Char) (rest : List Char) :
    parseStringBody (l.foldr (fun c a => escapeChar c ++ a) ('"' :: rest)) = some (l, rest) := by
  unfold parseStringBody
  apply parseStringBodyLoop_escape
  have := escaped_length l ('"' :: rest)
  simp only [List.length_cons] at this
  omega

/-! Stringify shape facts and parser fuel. -/


/-- Every value needs at least one unit of fuel. -/
theorem jsonFuel_pos (j : Json) : 1 ≤ jsonFuel j := by
  cases j <;> simp [jsonFuel]

/-- The first character of a stringified integer: a minus sign or a digit,
so never whitespace nor any structural character. -/
theorem intToChars_shape (n : Int) :
    ∃ c tl, intToChars n = c :: tl ∧ isJsonWs c = false ∧
      c ≠ 'n' ∧ c ≠ 't' ∧ c ≠ 'f' ∧ c ≠ '"' ∧ c ≠ '[' ∧ c ≠ '\x7b' ∧
      c ≠ ']' ∧ c ≠ '\x7d' := by
  unfold intToChars
  by_cases hn : n < 0
  · rw [if_pos hn]
    exact ⟨'-', natToChars n.natAbs, rfl, by decide, by decide, by decide, by decide,
      by decide, by decide, by decide, by decide, by decide⟩
  · rw [if_neg hn]
    obtain ⟨d, ds, hd10, hds, _⟩ := natToChars_shape n.natAbs
    obtain ⟨_, _, hw, _, hn', ht, hf', hq, hlb, hlcb, hrb, hrcb⟩ := digitChar_facts d hd10
    exact ⟨digitChar d, ds, hds, hw, hn', ht, hf', hq, hlb, hlcb, hrb, hrcb⟩

/-- The first character of any stringified value is never whitespace and
never a closing bracket or brace. -/
theorem stringify_head (j : Json) :
    ∃ c tl, jsonStringifyChars j = c :: tl ∧ isJsonWs c = false ∧
      c ≠ ']' ∧ c ≠ '\x7d' := by
  cases j with
  | null =>
    exact ⟨'n', ['u', 'l', 'l'], by simp [jsonStringifyChars], by decide, by decide, by decide⟩
  | bool b =>
    cases b with
    | true =>
      exact ⟨'t', ['r', 'u', 'e'], by simp [jsonStringifyChars], by decide, by decide,
        by decide⟩
    | false =>
      exact ⟨'f', ['a', 'l', 's', 'e'], by simp [jsonStringifyChars], by decide, by decide,
        by decide⟩
  | num n =>
    obtain ⟨c, tl, hct, hw, _, _, _, _, _, _, hrb, hrcb⟩ := intToChars_shape n
    exact ⟨c, tl, by simp [jsonStringifyChars, hct], hw, hrb, hrcb⟩
  | str s =>
    exact ⟨'"', s.data.foldr (fun c a => escapeChar c ++ a) ['"'],
      by simp [jsonStringifyChars, encodeStringChars], by decide, by decide, by decide⟩
  | arr es =>
    exact ⟨'[', jsonStringifyElems es ++ [']'], by simp [jsonStringifyChars], by decide,
      by decide, by decide⟩
  | obj fs =>
    exact ⟨'\x7b', jsonStringifyFields fs ++ ['\x7d'], by simp [jsonStringifyChars],
      by decide, by decide, by decide⟩

/-- Building block for numBoundary at a cons cell. -/
theorem numBoundary_cons (c : Char) (xs : List Char) (h1 : c.isDigit = false)
    (h2 : c ≠ '.') (h3 : c ≠ 'e') (h4 : c ≠ 'E') : numBoundary (c :: xs) :=
  ⟨h1, h2, h3, h4⟩


/-- Every element list needs at least one unit of fuel. -/
theorem jsonFuelElems_pos (es : List Json) : 1 ≤ jsonFuelElems es := by
  cases es <;> simp [jsonFuelElems]

/-- Every field list needs at least one unit of fuel. -/
theorem jsonFuelFields_pos (fs : List (String × Json)) : 1 ≤ jsonFuelFields fs := by
  cases fs <;> simp [jsonFuelFields]

/-- All three parse-back statements at a given fuel, proved together by
strong induction on the fuel: every nested parse uses strictly less fuel. -/
theorem parse_stringify_main : ∀ fuel : Nat,
    (∀ (j : Json) (rest : List Char), jsonFuel j ≤ fuel → numBoundary rest →
      parseValue fuel (jsonStringifyChars j ++ rest) = some (j, rest)) ∧
    (∀ (es : List Json) (rest : List Char), es ≠ [] → jsonFuelElems es ≤ fuel →
      parseElems fuel (jsonStringifyElems es ++ (']' :: rest)) = some (es, rest)) ∧
    (∀ (fs : List (String × Json)) (rest : List Char), fs ≠ [] → jsonFuelFields fs ≤ fuel →
      parseFields fuel (jsonStringifyFields fs ++ ('\x7d' :: rest)) = some (fs, rest)) := by
  intro fuel
  induction fuel using Nat.strong_induction_on with
  | _ fuel ih =>
    cases fuel with
    | zero =>
      refine ⟨?_, ?_, ?_⟩
      · intro j rest hf _
        exact absurd hf (by have := jsonFuel_pos j; omega)
      · intro es rest _ hf
        exact absurd hf (by have := jsonFuelElems_pos es; omega)
      · intro fs rest _ hf
        exact absurd hf (by have := jsonFuelFields_pos fs; omega)
    | succ f =>
      have ihv := (ih f (by omega)).1
      have ihe := (ih f (by omega)).2.1
      have ihf := (ih f (by omega)).2.2
      refine ⟨?_, ?_, ?_⟩
      · -- values
        intro j rest hf hrest
        cases j with
        | null =>
          simp [jsonStringifyChars, parseValue, skipWs, List.dropWhile_cons, isJsonWs]
        | bool b =>
          cases b <;>
            simp [jsonStringifyChars, parseValue, skipWs, List.dropWhile_cons, isJsonWs]
        | str s =>
          simp [jsonStringifyChars, encodeStringChars, parseValue, skipWs,
            List.dropWhile_cons, isJsonWs, foldr_escape_append, parseStringBody_escape]
        | num n =>
          obtain ⟨c0, tl, hct, hw, h1, h2, h3, h4, h5, h6, _, _⟩ := intToChars_shape n
          have hnum := parseNumber_intToChars n rest hrest
          simp only [jsonStringifyChars]
          rw [hct]
          simp only [parseValue, List.cons_append, skipWs, List.dropWhile_cons, hw,
            Bool.false_eq_true, if_false]
          rw [if_neg h1, if_neg h2, if_neg h3, if_neg h4, if_neg h5, if_neg h6,
            ← List.cons_append, ← hct, hnum]
          rfl
        | arr es =>
          cases es with
          | nil =>
            simp [jsonStringifyChars, jsonStringifyElems, parseValue, skipWs,
              List.dropWhile_cons, isJsonWs]
          | cons e es' =>
            obtain ⟨c0, tl0, hh, hw0, hrb0, _⟩ := stringify_head e
            have h1 : ∃ tl1, jsonStringifyElems (e :: es') = c0 :: tl1 := by
              cases es' with
              | nil => exact ⟨tl0, by simp [jsonStringifyElems, hh]⟩
              | cons e2 es2 =>
                exact ⟨tl0 ++ ',' :: jsonStringifyElems (e2 :: es2), by
                  simp [jsonStringifyElems, hh]⟩
            obtain ⟨tl1, h1⟩ := h1
            have hfe : jsonFuelElems (e :: es') ≤ f := by
              simp only [jsonFuel] at hf; omega
            have hsub := ihe (e :: es') rest (by simp) hfe
            rw [h1] at hsub
            simp only [List.cons_append] at hsub
            simp only [jsonStringifyChars]
            have hnorm : (('[' :: (jsonStringifyElems (e :: es') ++ [']'])) ++ rest) =
                '[' :: (c0 :: (tl1 ++ (']' :: rest))) := by
              rw [h1]; simp
            rw [hnorm]
            simp [parseValue, skipWs, List.dropWhile_cons, hw0, hrb0, hsub,
              show isJsonWs '[' = false from by decide]
        | obj fs =>
          cases fs with
          | nil =>
            simp [jsonStringifyChars, jsonStringifyFields, parseValue, skipWs,
              List.dropWhile_cons, isJsonWs]
          | cons kv fs' =>
            obtain ⟨k, v⟩ := kv
            have h1 : ∃ tl1, jsonStringifyFields ((k, v) :: fs') = '"' :: tl1 := by
              cases fs' with
              | nil =>
                exact ⟨(k.data.foldr (fun c a => escapeChar c ++ a) ['"']) ++
                  ':' :: jsonStringifyChars v, by
                    simp [jsonStringifyFields, encodeStringChars]⟩
              | cons kv2 fs2 =>
                exact ⟨(k.data.foldr (fun c a => escapeChar c ++ a) ['"']) ++
                  ':' :: jsonStringifyChars v ++ ',' :: jsonStringifyFields (kv2 :: fs2), by
                    simp [jsonStringifyFields, encodeStringChars]⟩
            obtain ⟨tl1, h1⟩ := h1
            have hff : jsonFuelFields ((k, v) :: fs') ≤ f := by
              simp only [jsonFuel] at hf; omega
            have hsub := ihf ((k, v) :: fs') rest (by simp) hff
            rw [h1] at hsub
            simp only [List.cons_append] at hsub
            simp only [jsonStringifyChars]
            have hnorm :
                (('\x7b' :: (jsonStringifyFields ((k, v) :: fs') ++ ['\x7d'])) ++ rest) =
                '\x7b' :: ('"' :: (tl1 ++ ('\x7d' :: rest))) := by
              rw [h1]; simp
            rw [hnorm]
            simp [parseValue, skipWs, List.dropWhile_cons, isJsonWs, hsub]
      · -- element lists
        intro es rest hne hf
        cases es with
        | nil => exact absurd rfl hne
        | cons e es' =>
          have hmax : jsonFuel e ≤ f ∧ jsonFuelElems es' ≤ f := by
            simp only [jsonFuelElems] at hf
            exact Nat.max_le.mp (by omega)
          cases es' with
          | nil =>
            have hsub := ihv e (']' :: rest) hmax.1
              (numBoundary_cons _ _ (by decide) (by decide) (by decide) (by decide))
            simp only [jsonStringifyElems, parseElems]
            rw [hsub]
            simp [skipWs, List.dropWhile_cons, isJsonWs]
          | cons e2 es2 =>
            have hsub := ihv e (',' :: (jsonStringifyElems (e2 :: es2) ++ (']' :: rest)))
              hmax.1
              (numBoundary_cons _ _ (by decide) (by decide) (by decide) (by decide))
            have hrec := ihe (e2 :: es2) rest (by simp) hmax.2
            simp only [jsonStringifyElems, parseElems, List.append_assoc, List.cons_append]
            rw [hsub]
            simp [skipWs, List.dropWhile_cons, isJsonWs, hrec]
      · -- field lists
        intro fs rest hne hf
        cases fs with
        | nil => exact absurd rfl hne
        | cons kv fs' =>
          obtain ⟨k, v⟩ := kv
          have hmax : jsonFuel v ≤ f ∧ jsonFuelFields fs' ≤ f := by
            simp only [jsonFuelFields] at hf
            exact Nat.max_le.mp (by omega)
          cases fs' with
          | nil =>
            have hsub := ihv v ('\x7d' :: rest) hmax.1
              (numBoundary_cons _ _ (by decide) (by decide) (by decide) (by decide))
            have hkey := parseStringBody_escape k.data
              (':' :: (jsonStringifyChars v ++ ('\x7d' :: rest)))
            simp only [jsonStringifyFields, parseFields, encodeStringChars,
              List.cons_append, List.append_assoc, List.nil_append, foldr_escape_append,
              List.singleton_append]
            simp [skipWs, List.dropWhile_cons, isJsonWs, hkey, hsub]
          | cons kv2 fs2 =>
            have hsub := ihv v
              (',' :: (jsonStringifyFields (kv2 :: fs2) ++ ('\x7d' :: rest))) hmax.1
              (numBoundary_cons _ _ (by decide) (by decide) (by decide) (by decide))
            have hrec := ihf (kv2 :: fs2) rest (by simp) hmax.2
            have hkey := parseStringBody_escape k.data
              (':' :: (jsonStringifyChars v ++
                (',' :: (jsonStringifyFields (kv2 :: fs2) ++ ('\x7d' :: rest)))))
            simp only [jsonStringifyFields, parseFields, encodeStringChars,
              List.cons_append, List.append_assoc, List.nil_append, foldr_escape_append,
              List.singleton_append]
            simp [skipWs, List.dropWhile_cons, isJsonWs, hkey, hsub, hrec]

/-- The parser reads back a stringified value, leaving exactly the rest. -/
theorem parseValue_stringify (j : Json) (fuel : Nat) (rest : List Char)
    (hf : jsonFuel j ≤ fuel) (hrest : numBoundary rest) :
    parseValue fuel (jsonStringifyChars j ++ rest) = some (j, rest) :=
  (parse_stringify_main fuel).1 j rest hf hrest

/-- Fuel bounds against output length, proved by strong induction on size:
one nesting level costs at least one output character. -/
theorem fuel_le_length_main : ∀ n : Nat,
    (∀ j : Json, sizeOf j ≤ n → jsonFuel j ≤ (jsonStringifyChars j).length + 1) ∧
    (∀ es : List Json, sizeOf es ≤ n →
      jsonFuelElems es ≤ (jsonStringifyElems es).length + 2) ∧
    (∀ fs : List (String × Json), sizeOf fs ≤ n →
      jsonFuelFields fs ≤ (jsonStringifyFields fs).length + 2) := by
  intro n
  induction n using Nat.strong_induction_on with
  | _ n ih =>
    refine ⟨?_, ?_, ?_⟩
    · intro j hs
      cases j with
      | null => simp [jsonFuel, jsonStringifyChars]
      | bool b => cases b <;> simp [jsonFuel, jsonStringifyChars]
      | num m => simp [jsonFuel]
      | str s => simp [jsonFuel]
      | arr es =>
        have hlt : sizeOf es < n := by
          have : sizeOf es < sizeOf (Json.arr es) := by simp
          omega
        have he := (ih (sizeOf es) hlt).2.1 es (le_refl _)
        simp only [jsonFuel, jsonStringifyChars, List.length_cons, List.length_append,
          List.length_singleton]
        omega
      | obj fs =>
        have hlt : sizeOf fs < n := by
          have : sizeOf fs < sizeOf (Json.obj fs) := by simp
          omega
        have hfb := (ih (sizeOf fs) hlt).2.2 fs (le_refl _)
        simp only [jsonFuel, jsonStringifyChars, List.length_cons, List.length_append,
          List.length_singleton]
        omega
    · intro es hs
      cases es with
      | nil => simp [jsonFuelElems]
      | cons e es' =>
        have hlt1 : sizeOf e < n := by
          have : sizeOf e < sizeOf (e :: es') := by simp; omega
          omega
        have hlt2 : sizeOf es' < n := by
          have : sizeOf es' < sizeOf (e :: es') := by simp
          omega
        have h1 := (ih (sizeOf e) hlt1).1 e (le_refl _)
        have h2 := (ih (sizeOf es') hlt2).2.1 es' (le_refl _)
        have hmax : max (jsonFuel e) (jsonFuelElems es') ≤
            max ((jsonStringifyChars e).length + 1) ((jsonStringifyElems es').length + 2) :=
          max_le_max h1 h2
        cases es' with
        | nil =>
          simp only [jsonFuelElems, jsonStringifyElems] at hmax ⊢
          have := Nat.max_le.mp hmax
          omega
        | cons e2 es2 =>
          simp only [jsonFuelElems, jsonStringifyElems, List.length_append,
            List.length_cons] at hmax ⊢
          have := Nat.max_le.mp hmax
          omega
    · intro fs hs
      cases fs with
      | nil => simp [jsonFuelFields]
      | cons kv fs' =>
        obtain ⟨k, v⟩ := kv
        have hlt1 : sizeOf v < n := by
          have : sizeOf v < sizeOf ((k, v) :: fs') := by simp; omega
          omega
        have hlt2 : sizeOf fs' < n := by
          have : sizeOf fs' < sizeOf ((k, v) :: fs') := by simp
          omega
        have h1 := (ih (sizeOf v) hlt1).1 v (le_refl _)
        have h2 := (ih (sizeOf fs') hlt2).2.2 fs' (le_refl _)
        cases fs' with
        | nil =>
          simp only [jsonFuelFields, jsonStringifyFields, List.length_append,
            List.length_cons] at h1 h2 ⊢
          have hmax : max (jsonFuel v) 1 ≤ (jsonStringifyChars v).length + 1 := by
            refine Nat.max_le.mpr ⟨h1, by omega⟩
          omega
        | cons kv2 fs2 =>
          simp only [jsonFuelFields, jsonStringifyFields, List.length_append,
            List.length_cons] at h1 h2 ⊢
          have hmax := Nat.max_le.mp (max_le_max h1 h2)
          omega

/-- JSON.parse undoes JSON.stringify. -/
theorem jsonParse_stringify (j : Json) :
    jsonParseChars (jsonStringifyChars j) = some j := by
  unfold jsonParseChars
  have hfb : jsonFuel j ≤ (jsonStringifyChars j).length + 1 :=
    (fuel_le_length_main (sizeOf j)).1 j (le_refl _)
  have h := parseValue_stringify j ((jsonStringifyChars j).length + 1) [] hfb trivial
  rw [List.append_nil] at h
  rw [h]
  rfl

/-! JWT claim layer. -/

/-- Characters of a three-part dot-joined token. -/
theorem token_data_split (s t sig : String) :
    (s ++ "." ++ t ++ "." ++ sig).data = s.data ++ '.' :: (t.data ++ '.' :: sig.data) := by
  have hdot : ("." : String).data = ['.'] := rfl
  simp [String.data_append, hdot]

/-- A base64url-encoded string never contains a dot. -/
theorem dot_not_mem_b64str (s : String) : '.' ∉ (base64EncodeWebSafeStr s).data :=
  dot_not_mem_base64 _ (utf8Encode_lt_256 _)

/-- Decoding a token with dot-free first two segments reads exactly the
second segment. -/
theorem decodeJwt_dotfree (s t sig : String) (hs : '.' ∉ s.data) (ht : '.' ∉ t.data) :
    decodeJwt_ (s ++ "." ++ t ++ "." ++ sig) = decodeSegment t.data := by
  unfold decodeJwt_
  rw [token_data_split, splitDots_second s.data t.data sig.data hs ht]
  rfl

/-- The decode chain undoes base64url-of-stringify. -/
theorem decodeSegment_b64_stringify (j : Json) :
    decodeSegment (base64EncodeWebSafeStr ⟨jsonStringifyChars j⟩).data = some j := by
  have h1 := base64_decode_encode (utf8Encode (jsonStringifyChars j)) (utf8Encode_lt_256 _)
  have h2 := utf8Decode_utf8Encode (jsonStringifyChars j)
  have h3 := jsonParse_stringify j
  simp [decodeSegment, base64EncodeWebSafeStr, h1, h2, h3]

/-- Decoding a token whose first two segments are base64url-encoded JSON
values recovers the second value, whatever the signature segment holds. -/
theorem decodeJwt_b64_segments (hdr payload : Json) (sig : String) :
    decodeJwt_ (base64EncodeWebSafeStr ⟨jsonStringifyChars hdr⟩ ++ "." ++
      base64EncodeWebSafeStr ⟨jsonStringifyChars payload⟩ ++ "." ++ sig) = some payload := by
  rw [decodeJwt_dotfree _ _ _ (dot_not_mem_b64str _) (dot_not_mem_b64str _)]
  exact decodeSegment_b64_stringify payload

/-- C1: for every JSON payload, key, and options (hence every signing
capability reached through customOptions.computeJWTSignature, including the
default), decodeJwt_ applied to encodeJwt_'s token returns exactly the
payload; the decoder never looks at the signature segment. -/
theorem decodeJwt_encodeJwt_roundtrip (rsa : String → String → List Nat)
    (payload : Json) (key : String) (customOptions : Option CustomOptions) :
    decodeJwt_ (encodeJwt_ rsa payload key customOptions) = some payload := by
  have htok : encodeJwt_ rsa payload key customOptions =
      base64EncodeWebSafeStr
          ⟨jsonStringifyChars (Json.obj (mergedHeader ((customOptions.getD {}).header.getD [])))⟩ ++
        "." ++ base64EncodeWebSafeStr ⟨jsonStringifyChars payload⟩ ++ "." ++
        (customOptions.getD {}).computeJWTSignature.getD (computeJWTSignatureDefault_ rsa)
          (base64EncodeWebSafeStr
              ⟨jsonStringifyChars
                (Json.obj (mergedHeader ((customOptions.getD {}).header.getD [])))⟩ ++
            "." ++ base64EncodeWebSafeStr ⟨jsonStringifyChars payload⟩) key := rfl
  rw [htok]
  exact decodeJwt_b64_segments _ _ _

/-- C2: with a caller-supplied header map H and signing function f,
encodeJwt_ returns base64url(JSON(merged header)) ++ "." ++
base64url(JSON(payload)) ++ "." ++ f(first two segments joined by a dot, key);
the token's header segment decodes back to the merged header; and in the
merged header every caller-supplied key holds the caller's value (caller
wins, given distinct caller keys) while every other key keeps its default
binding. -/
theorem encodeJwt_honors_custom_options (rsa : String → String → List Nat)
    (payload : Json) (key : String) (H : List (String × Json))
    (f : String → String → String) (hnd : (H.map Prod.fst).Nodup) :
    (encodeJwt_ rsa payload key (some { header := some H, computeJWTSignature := some f }) =
      base64EncodeWebSafeStr ⟨jsonStringifyChars (Json.obj (mergedHeader H))⟩ ++ "." ++
        base64EncodeWebSafeStr ⟨jsonStringifyChars payload⟩ ++ "." ++
        f (base64EncodeWebSafeStr ⟨jsonStringifyChars (Json.obj (mergedHeader H))⟩ ++ "." ++
            base64EncodeWebSafeStr ⟨jsonStringifyChars payload⟩) key) ∧
    ((splitDots (encodeJwt_ rsa payload key
        (some { header := some H, computeJWTSignature := some f })).data)[0]?).bind
        decodeSegment = some (Json.obj (mergedHeader H)) ∧
    (∀ kv ∈ H, assocGet (mergedHeader H) kv.1 = some kv.2) ∧
    (∀ k, k ∉ H.map Prod.fst →
      assocGet (mergedHeader H) k =
        assocGet [("alg", Json.str "RS256"), ("typ", Json.str "JWT")] k) := by
  have htok : encodeJwt_ rsa payload key
      (some { header := some H, computeJWTSignature := some f }) =
      base64EncodeWebSafeStr ⟨jsonStringifyChars (Json.obj (mergedHeader H))⟩ ++ "." ++
        base64EncodeWebSafeStr ⟨jsonStringifyChars payload⟩ ++ "." ++
        f (base64EncodeWebSafeStr ⟨jsonStringifyChars (Json.obj (mergedHeader H))⟩ ++ "." ++
            base64EncodeWebSafeStr ⟨jsonStringifyChars payload⟩) key := rfl
  refine ⟨htok, ?_, ?_, ?_⟩
  · rw [htok, token_data_split, splitDots_append _ _ (dot_not_mem_b64str _),
      List.getElem?_cons_zero]
    exact decodeSegment_b64_stringify (Json.obj (mergedHeader H))
  · intro kv hmem
    exact assocGet_foldl_set_mem H _ kv hmem hnd
  · intro k hk
    exact assocGet_foldl_set_notmem H _ k hk

/-- C2 witness: a concrete header override and signing function; the
caller's alg survives the merge and the untouched typ keeps its default. -/
theorem encodeJwt_honors_custom_options_witness :
    ([(("alg" : String), Json.str "HS256"), ("kid", Json.str "k1")].map Prod.fst).Nodup ∧
    assocGet (mergedHeader [("alg", Json.str "HS256"), ("kid", Json.str "k1")]) "alg" =
      some (Json.str "HS256") ∧
    assocGet (mergedHeader [("alg", Json.str "HS256"), ("kid", Json.str "k1")]) "typ" =
      some (Json.str "JWT") := by
  have h := encodeJwt_honors_custom_options (fun _ _ => []) (Json.obj [("iss", Json.str "me")])
    "secret" [("alg", Json.str "HS256"), ("kid", Json.str "k1")] (fun _ _ => "SIG")
    (by decide)
  refine ⟨by decide, h.2.2.1 ("alg", Json.str "HS256") (List.mem_cons_self _ _), ?_⟩
  rw [h.2.2.2 "typ" (by decide)]
  rfl

/-- C9: decodeJwt_'s result is a function of the second dot-separated
segment alone: two tokens agreeing there decode identically, whatever their
header, signature, or extra segments hold. -/
theorem decodeJwt_depends_only_on_payload_segment (s t : String)
    (h : (splitDots s.data)[1]? = (splitDots t.data)[1]?) :
    decodeJwt_ s = decodeJwt_ t := by
  unfold decodeJwt_
  rw [h]

/-- C9 witness: two concrete tokens differing in header, signature, and
segment count but sharing the second segment decode identically. -/
theorem decodeJwt_depends_only_on_payload_segment_witness :
    (splitDots (⟨['a', '.', 'Q', 'Q', '.', 'x']⟩ : String).data)[1]? =
      (splitDots (⟨['b', 'b', '.', 'Q', 'Q', '.', 'y', '.', 'z']⟩ : String).data)[1]? ∧
    decodeJwt_ ⟨['a', '.', 'Q', 'Q', '.', 'x']⟩ =
      decodeJwt_ ⟨['b', 'b', '.', 'Q', 'Q', '.', 'y', '.', 'z']⟩ :=
  ⟨by decide, decodeJwt_depends_only_on_payload_segment _ _ (by decide)⟩
